import Mathlib

/-!
Verification of the markdown diff block generator.

The repository's core is the `resultText` memo in `src/src/App.tsx`
(lines 172-190), which renders the output of the line differ as a
prefixed diff block, and `copyToClipboard` (lines 139-152), which wraps
the rendered text in a fenced markdown code block.

The line differ itself (`diffLines`) is imported from the third-party
`diff` package and its code is not part of this repository; it is
modelled here from the specification (spec sections 3 and 4.1): split
both inputs into line sequences, compute a longest common subsequence
of the lines, walk both sides against it producing Removed / Added /
Unchanged runs with all deletions of a region emitted before the
insertions of that region, and coalesce adjacent same-kind lines into
hunks.  The rendering layer (`resultText`, `partDisplay`,
`copyToClipboard`) is translated directly from the source.
-/

namespace MDiff

/-- Splits a character list on the newline character.  This is the
character-level model of the JavaScript `value.split('\n')`: the result
is the maximal newline-free segments, including empty segments between
adjacent newlines and at both ends. -/
def splitNl : List Char → List (List Char)
  | [] => [[]]
  | c :: rest =>
    if c = '\n' then [] :: splitNl rest
    else
      match splitNl rest with
      | [] => [[c]]
      | p :: ps => (c :: p) :: ps

/-- Model of the JavaScript `s.split('\n')` on strings. -/
def jsLines (s : String) : List String :=
  (splitNl s.data).map (fun p => String.mk p)

/-- Model of source line 182: `lines.length > 0 && lines[lines.length - 1]
=== '' ? lines.slice(0, -1) : lines` — drop the final element when it is
the empty string. -/
def dropLastEmpty : List String → List String
  | [] => []
  | [x] => if x = "" then [] else [x]
  | x :: y :: rest => x :: dropLastEmpty (y :: rest)

/-- Modelled from the spec: the line sequence used by the third-party
tokenizer — split on newline, dropping a final empty element (which is
present exactly when the text is empty or ends in a newline).  This is
the tokenization under which the spec's degenerate empty/empty case and
identity property are consistent. -/
def toLines (s : String) : List String :=
  dropLastEmpty (jsLines s)

/-- The line-sequence rule exactly as the claims state it: split on
newline, and drop the final empty element only when the text ends in a
newline (so the empty string has one empty line). -/
def specLineSeq (s : String) : List String :=
  if s.data.getLast? = some '\n' then (jsLines s).dropLast else jsLines s

/-- Concatenation of a list of strings. -/
def strJoin : List String → String
  | [] => ""
  | s :: rest => s ++ strJoin rest

/-- Strings joined by a newline separator (no trailing newline). -/
def joinWithNl : List String → String
  | [] => ""
  | [x] => x
  | x :: y :: rest => x ++ "\n" ++ joinWithNl (y :: rest)

/-- Classification of a line in the diff. -/
inductive Kind
  | unchanged
  | removed
  | added
deriving DecidableEq, Repr

/-- One classified line of the edit script. -/
structure HLine where
  kind : Kind
  content : String
deriving DecidableEq, Repr

/-- Modelled from the spec: an edit hunk, a run of consecutive lines
sharing one classification. -/
structure Hunk where
  kind : Kind
  lines : List String
deriving DecidableEq, Repr

/-- Modelled from the spec: a change object as produced by the
third-party `diffLines`; `value` carries the hunk's text and the flags
mark added/removed hunks. -/
structure Change where
  value : String
  added : Bool
  removed : Bool
deriving DecidableEq, Repr

/-- Modelled from the spec: longest common subsequence with explicit
fuel (the fuel keeps the recursion structural; `lcs` supplies enough
fuel for the recursion never to be cut off). -/
def lcsF : Nat → List String → List String → List String
  | 0, _, _ => []
  | _ + 1, [], _ => []
  | _ + 1, _ :: _, [] => []
  | f + 1, x :: xs, y :: ys =>
    if x = y then x :: lcsF f xs ys
    else
      let s1 := lcsF f (x :: xs) ys
      let s2 := lcsF f xs (y :: ys)
      if s2.length ≤ s1.length then s1 else s2

/-- Modelled from the spec: longest common subsequence of two line
sequences, with line-string equality as the element equality. -/
def lcs (xs ys : List String) : List String :=
  lcsF (xs.length + ys.length) xs ys

/-- Modelled from the spec: walk the original and changed line
sequences against the common subsequence.  For each common line, the
unmatched original lines before it are emitted as removed and the
unmatched changed lines before it as added — all deletions of a region
before its insertions, the spec's tie-break rule — then the common line
is emitted as unchanged.  Lines after the last common line are emitted
as removed then added. -/
def walk : List String → List String → List String → List HLine
  | os, cs, [] =>
    os.map (fun s => ⟨Kind.removed, s⟩) ++ cs.map (fun s => ⟨Kind.added, s⟩)
  | os, cs, l :: ls =>
    if os.dropWhile (fun x => x != l) = [] ∨ cs.dropWhile (fun x => x != l) = [] then
      os.map (fun s => ⟨Kind.removed, s⟩) ++ cs.map (fun s => ⟨Kind.added, s⟩)
    else
      (os.takeWhile (fun x => x != l)).map (fun s => ⟨Kind.removed, s⟩) ++
      (cs.takeWhile (fun x => x != l)).map (fun s => ⟨Kind.added, s⟩) ++
      ⟨Kind.unchanged, l⟩ ::
        walk (os.dropWhile (fun x => x != l)).tail (cs.dropWhile (fun x => x != l)).tail ls

/-- One step of hunk coalescing: prepend a classified line to a hunk
list, merging it into the first hunk when the kinds agree. -/
def coalesceStep (hl : HLine) : List Hunk → List Hunk
  | [] => [⟨hl.kind, [hl.content]⟩]
  | h :: hs =>
    if hl.kind = h.kind then ⟨hl.kind, hl.content :: h.lines⟩ :: hs
    else ⟨hl.kind, [hl.content]⟩ :: h :: hs

/-- Modelled from the spec: coalesce adjacent same-kind lines into
hunks (spec section 3: adjacent hunks of the same type are merged). -/
def coalesce : List HLine → List Hunk
  | [] => []
  | hl :: t => coalesceStep hl (coalesce t)

/-- Modelled from the spec: the hunk list of the diff of two line
sequences. -/
def hunksOf (os cs : List String) : List Hunk :=
  coalesce (walk os cs (lcs os cs))

/-- Modelled from the spec: the change object of a hunk; its value is
the hunk's lines each followed by a newline, as the line tokens of the
third-party differ carry their newline. -/
def hunkChange (h : Hunk) : Change :=
  ⟨strJoin (h.lines.map (fun l => l ++ "\n")), h.kind = Kind.added, h.kind = Kind.removed⟩

/-- Modelled from the spec: `diffLines` of the third-party `diff`
package, whose code is not in this repository — the ordered change list
between the two texts. -/
def diffLines (oldT newT : String) : List Change :=
  (hunksOf (toLines oldT) (toLines newT)).map hunkChange

/-- The display lines contributed by one change object, translated from
source lines 180-187: choose the prefix from the flags, split the value
on newline, drop a trailing empty segment, and keep a line only when it
is non-empty or is the only line of the part. -/
def partDisplay (part : Change) : List String :=
  let pfx := if part.added then "+ " else if part.removed then "- " else "  "
  let lines := jsLines part.value
  let relevantLines := dropLastEmpty lines
  (relevantLines.filter (fun line => line != "" || relevantLines.length == 1)).map
    (fun line => pfx ++ line)

/-- The rendered display lines of the diff of the two input texts (the
lines that `resultText` emits, without the terminating newlines). -/
def displayLines (originText changedText : String) : List String :=
  if originText = "" ∧ changedText = "" then []
  else (diffLines originText changedText).flatMap partDisplay

/-- The body of the rendering loop of source lines 179-188: append
prefix + line + newline to the accumulated result for every line of the
part that survives the empty-line filter. -/
def partAppend (diffResult : String) (part : Change) : String :=
  let pfx := if part.added then "+ " else if part.removed then "- " else "  "
  let lines := jsLines part.value
  let relevantLines := dropLastEmpty lines
  relevantLines.foldl
    (fun acc line =>
      if line != "" || relevantLines.length == 1 then acc ++ (pfx ++ line ++ "\n")
      else acc)
    diffResult

/-- Translated from source lines 172-190: the result text.  Returns the
empty string when both inputs are empty (JavaScript falsiness of the
empty string), otherwise folds the rendering loop over the change
list. -/
def resultText (originText changedText : String) : String :=
  if originText = "" ∧ changedText = "" then ""
  else (diffLines originText changedText).foldl partAppend ""

/-- The externally visible outcome of a copy request: the payload of
the attempted clipboard write, if any, and the toast title reported. -/
structure CopyOutcome where
  wrote : Option String
  toastTitle : String
deriving DecidableEq, Repr

/-- Translated from source lines 139-152: reject an empty result with a
"Nothing to copy" toast and no write; otherwise attempt to write the
text wrapped in a fenced diff code block.  (Whether the asynchronous
write itself succeeds is external; the model records the attempted
payload.) -/
def copyToClipboard (textToCopy : String) : CopyOutcome :=
  if textToCopy = "" then ⟨none, "Nothing to copy"⟩
  else ⟨some ("```diff\n" ++ textToCopy ++ "\n```"), "Copied to clipboard"⟩

/-- The claims' reading of a display line on the original side: if the
two-character prefix is "- " or "  ", strip it and return the content. -/
def stripOrig (l : String) : Option String :=
  if l.data.take 2 = ['-', ' '] ∨ l.data.take 2 = [' ', ' '] then
    some (String.mk (l.data.drop 2))
  else none

/-- The claims' reading of a display line on the changed side: if the
two-character prefix is "+ " or "  ", strip it and return the content. -/
def stripChg (l : String) : Option String :=
  if l.data.take 2 = ['+', ' '] ∨ l.data.take 2 = [' ', ' '] then
    some (String.mk (l.data.drop 2))
  else none

/-- The two-character display prefix of a classification. -/
def kindPfx : Kind → String
  | Kind.unchanged => "  "
  | Kind.removed => "- "
  | Kind.added => "+ "

/-- The original-side content of a classified line. -/
def origContent (hl : HLine) : Option String :=
  if hl.kind = Kind.added then none else some hl.content

/-- The changed-side content of a classified line. -/
def chgContent (hl : HLine) : Option String :=
  if hl.kind = Kind.removed then none else some hl.content

/-- The display lines contributed by one hunk: its surviving lines with
the kind's prefix. -/
def hunkDisplay (h : Hunk) : List String :=
  (h.lines.filter (fun line => line != "" || h.lines.length == 1)).map
    (fun line => kindPfx h.kind ++ line)

/-! ### String and splitting infrastructure -/

theorem str_eta (s : String) : String.mk s.data = s := by
  cases s
  rfl

theorem str_mk_eq_empty {p : List Char} (h : String.mk p = "") : p = [] := by
  have := congrArg String.data h
  simpa using this

theorem splitNl_ne_nil (cs : List Char) : splitNl cs ≠ [] := by
  induction cs with
  | nil => simp [splitNl]
  | cons c rest ih =>
    simp only [splitNl]
    split
    · simp
    · cases h : splitNl rest with
      | nil => simp
      | cons p ps => simp

theorem splitNl_no_nl (cs : List Char) : ∀ p ∈ splitNl cs, '\n' ∉ p := by
  induction cs with
  | nil =>
    intro p hp
    simp [splitNl] at hp
    simp [hp]
  | cons c rest ih =>
    intro p hp
    simp only [splitNl] at hp
    by_cases hc : c = '\n'
    · rw [if_pos hc] at hp
      rcases List.mem_cons.mp hp with h | h
      · simp [h]
      · exact ih p h
    · rw [if_neg hc] at hp
      cases hsp : splitNl rest with
      | nil => exact absurd hsp (splitNl_ne_nil rest)
      | cons q qs =>
        rw [hsp] at hp
        rcases List.mem_cons.mp hp with h | h
        · subst h
          intro hmem
          rcases List.mem_cons.mp hmem with h' | h'
          · exact hc h'.symm
          · exact ih q (hsp ▸ List.mem_cons_self q qs) h'
        · exact ih p (hsp ▸ List.mem_cons_of_mem q h)

theorem splitNl_append_nl (as bs : List Char) (h : ∀ a ∈ as, a ≠ '\n') :
    splitNl (as ++ '\n' :: bs) = as :: splitNl bs := by
  induction as with
  | nil => simp [splitNl]
  | cons a as ih =>
    have ha : a ≠ '\n' := h a (List.mem_cons_self a as)
    simp only [List.cons_append, splitNl, if_neg ha, List.append_eq]
    rw [ih (fun x hx => h x (List.mem_cons_of_mem a hx))]

theorem splitNl_concat_nl (as : List Char) :
    splitNl (as ++ ['\n']) = splitNl as ++ [[]] := by
  induction as with
  | nil => simp [splitNl]
  | cons a as ih =>
    by_cases ha : a = '\n'
    · simp only [List.cons_append, splitNl, if_pos ha, List.append_eq, ih]
    · simp only [List.cons_append, splitNl, if_neg ha, List.append_eq, ih]
      cases hsp : splitNl as with
      | nil => exact absurd hsp (splitNl_ne_nil as)
      | cons p ps => simp

theorem splitNl_concat_ne (as : List Char) (c : Char) (hc : c ≠ '\n') :
    ∀ p, (splitNl (as ++ [c])).getLast? = some p → p ≠ [] := by
  induction as with
  | nil =>
    intro p hp
    simp only [List.nil_append, splitNl, if_neg hc] at hp
    simp at hp
    simp [← hp]
  | cons a as ih =>
    intro p hp
    by_cases ha : a = '\n'
    · simp only [List.cons_append, splitNl, if_pos ha, List.append_eq] at hp
      cases hsp : splitNl (as ++ [c]) with
      | nil => exact absurd hsp (splitNl_ne_nil _)
      | cons q qs =>
        rw [hsp, List.getLast?_cons_cons, ← hsp] at hp
        exact ih p hp
    · simp only [List.cons_append, splitNl, if_neg ha, List.append_eq] at hp
      cases hsp : splitNl (as ++ [c]) with
      | nil => exact absurd hsp (splitNl_ne_nil _)
      | cons q qs =>
        rw [hsp] at hp
        cases qs with
        | nil =>
          simp at hp
          simp [← hp]
        | cons r rs =>
          rw [List.getLast?_cons_cons] at hp
          refine ih p ?_
          rw [hsp, List.getLast?_cons_cons]
          exact hp

theorem dropLastEmpty_concat_empty (ls : List String) :
    dropLastEmpty (ls ++ [""]) = ls := by
  induction ls with
  | nil => simp [dropLastEmpty]
  | cons x ls ih =>
    cases ls with
    | nil => simp [dropLastEmpty]
    | cons y ls' =>
      simp only [List.cons_append, dropLastEmpty, List.append_eq]
      exact congrArg (List.cons x) ih

theorem dropLastEmpty_spec (l : List String) :
    dropLastEmpty l = if l.getLast? = some "" then l.dropLast else l := by
  induction l with
  | nil => simp [dropLastEmpty]
  | cons x l ih =>
    cases l with
    | nil =>
      simp only [dropLastEmpty, List.getLast?_singleton, List.dropLast_single]
      simp [Option.some.injEq]
    | cons y l' =>
      simp only [dropLastEmpty, ih, List.getLast?_cons_cons]
      split
      · simp [List.dropLast]
      · rfl

theorem mem_dropLastEmpty {x : String} {l : List String} (h : x ∈ dropLastEmpty l) :
    x ∈ l := by
  rw [dropLastEmpty_spec] at h
  split at h
  · exact (List.dropLast_sublist l).subset h
  · exact h

theorem jsLines_strJoin (ls : List String) (h : ∀ l ∈ ls, '\n' ∉ l.data) :
    jsLines (strJoin (ls.map (fun l => l ++ "\n"))) = ls ++ [""] := by
  induction ls with
  | nil => simp [strJoin, jsLines, splitNl]
  | cons l ls ih =>
    simp only [List.map_cons, strJoin, jsLines]
    have hdata : ((l ++ "\n") ++ strJoin (ls.map (fun l => l ++ "\n"))).data
        = l.data ++ '\n' :: (strJoin (ls.map (fun l => l ++ "\n"))).data := by
      rw [String.data_append, String.data_append, show "\n".data = ['\n'] by decide,
        List.append_assoc]
      rfl
    rw [hdata, splitNl_append_nl]
    · simp only [List.map_cons, str_eta]
      have := ih (fun x hx => h x (List.mem_cons_of_mem l hx))
      simp only [jsLines] at this
      rw [this]
      simp
    · intro a ha han
      exact h l (List.mem_cons_self l ls) (han ▸ ha)

theorem mem_toLines_no_nl {s : String} {l : String} (h : l ∈ toLines s) :
    '\n' ∉ l.data := by
  have h1 : l ∈ jsLines s := mem_dropLastEmpty h
  simp only [jsLines, List.mem_map] at h1
  obtain ⟨p, hp, hpl⟩ := h1
  have := splitNl_no_nl s.data p hp
  rw [← hpl]
  exact this

theorem specLineSeq_eq_toLines (s : String) (h : s ≠ "") :
    specLineSeq s = toLines s := by
  have hd : s.data ≠ [] := by
    intro hc
    apply h
    have := congrArg String.mk hc
    rwa [str_eta] at this
  have hdecomp : s.data.dropLast ++ [s.data.getLast hd] = s.data :=
    List.dropLast_append_getLast hd
  by_cases hlast : s.data.getLast? = some '\n'
  · have hnl : s.data.getLast hd = '\n' := by
      have := List.getLast?_eq_getLast s.data hd
      rw [hlast] at this
      exact (Option.some.injEq _ _ ▸ this.symm :)
    simp only [specLineSeq, if_pos hlast, toLines, jsLines]
    rw [← hdecomp, hnl, splitNl_concat_nl, List.map_append]
    simp only [List.map_cons, List.map_nil]
    rw [dropLastEmpty_concat_empty]
    have : (List.map (fun p => String.mk p) (splitNl s.data.dropLast) ++ [String.mk []]).dropLast
        = List.map (fun p => String.mk p) (splitNl s.data.dropLast) := List.dropLast_concat
    exact this.symm ▸ rfl
  · simp only [specLineSeq, if_neg hlast, toLines]
    rw [dropLastEmpty_spec, if_neg]
    intro hc
    have hc' : (splitNl s.data).getLast?.map (fun p => String.mk p) = some "" := by
      rw [← List.getLast?_map]
      exact hc
    obtain ⟨p, hp, hps⟩ := Option.map_eq_some'.mp hc'
    have hpn : p = [] := str_mk_eq_empty hps
    have hcne : s.data.getLast hd ≠ '\n' := by
      intro hcc
      apply hlast
      rw [List.getLast?_eq_getLast s.data hd, hcc]
    have := splitNl_concat_ne s.data.dropLast (s.data.getLast hd) hcne p (by rw [hdecomp]; exact hp)
    exact this hpn

/-! ### Properties of the longest common subsequence -/

theorem mem_lcsF : ∀ (f : Nat) (xs ys : List String) (l : String),
    l ∈ lcsF f xs ys → l ∈ xs ∧ l ∈ ys := by
  intro f
  induction f with
  | zero => intro xs ys l h; simp [lcsF] at h
  | succ f ih =>
    intro xs ys l h
    cases xs with
    | nil => simp [lcsF] at h
    | cons x xs =>
      cases ys with
      | nil => simp [lcsF] at h
      | cons y ys =>
        simp only [lcsF] at h
        by_cases hxy : x = y
        · rw [if_pos hxy] at h
          rcases List.mem_cons.mp h with h1 | h1
          · subst h1
            exact ⟨List.mem_cons_self _ _, hxy ▸ List.mem_cons_self _ _⟩
          · have := ih xs ys l h1
            exact ⟨List.mem_cons_of_mem _ this.1, List.mem_cons_of_mem _ this.2⟩
        · rw [if_neg hxy] at h
          split at h
          · have := ih (x :: xs) ys l h
            exact ⟨this.1, List.mem_cons_of_mem _ this.2⟩
          · have := ih xs (y :: ys) l h
            exact ⟨List.mem_cons_of_mem _ this.1, this.2⟩

theorem mem_lcs {xs ys : List String} {l : String} (h : l ∈ lcs xs ys) :
    l ∈ xs ∧ l ∈ ys :=
  mem_lcsF _ xs ys l h

theorem lcsF_self : ∀ (xs : List String) (f : Nat), 2 * xs.length ≤ f →
    lcsF f xs xs = xs := by
  intro xs
  induction xs with
  | nil => intro f _; cases f <;> simp [lcsF]
  | cons x xs ih =>
    intro f hf
    rw [List.length_cons] at hf
    cases f with
    | zero => omega
    | succ f =>
      simp only [lcsF]
      rw [if_pos trivial, ih f (by omega)]

theorem lcs_self (xs : List String) : lcs xs xs = xs :=
  lcsF_self xs (xs.length + xs.length) (by omega)

theorem lcs_nil_of_disjoint {xs ys : List String} (h : ∀ l ∈ xs, l ∉ ys) :
    lcs xs ys = [] := by
  rw [List.eq_nil_iff_forall_not_mem]
  intro l hl
  have := mem_lcs hl
  exact h l this.1 this.2

/-! ### Properties of the walk -/

theorem dropWhile_bne_head {l : String} {os xs : List String} {x : String}
    (h : os.dropWhile (fun a => a != l) = x :: xs) : x = l := by
  induction os with
  | nil => simp [List.dropWhile] at h
  | cons o os ih =>
    rw [List.dropWhile_cons] at h
    by_cases ho : o = l
    · rw [if_neg (by simp [ho])] at h
      exact (List.cons.injEq _ _ _ _ ▸ h).1.symm ▸ ho
    · rw [if_pos (by simp [ho])] at h
      exact ih h

theorem filterMap_rem_orig (os : List String) :
    (os.map (fun s => (⟨Kind.removed, s⟩ : HLine))).filterMap origContent = os := by
  induction os with
  | nil => rfl
  | cons o os ih => simp [List.filterMap_cons, origContent, ih]

theorem filterMap_add_orig (cs : List String) :
    (cs.map (fun s => (⟨Kind.added, s⟩ : HLine))).filterMap origContent = [] := by
  induction cs with
  | nil => rfl
  | cons c cs ih => simp [List.filterMap_cons, origContent, ih]

theorem filterMap_rem_chg (os : List String) :
    (os.map (fun s => (⟨Kind.removed, s⟩ : HLine))).filterMap chgContent = [] := by
  induction os with
  | nil => rfl
  | cons o os ih => simp [List.filterMap_cons, chgContent, ih]

theorem filterMap_add_chg (cs : List String) :
    (cs.map (fun s => (⟨Kind.added, s⟩ : HLine))).filterMap chgContent = cs := by
  induction cs with
  | nil => rfl
  | cons c cs ih => simp [List.filterMap_cons, chgContent, ih]

theorem walk_orig : ∀ (ls os cs : List String),
    (walk os cs ls).filterMap origContent = os := by
  intro ls
  induction ls with
  | nil =>
    intro os cs
    simp only [walk, List.filterMap_append, filterMap_rem_orig, filterMap_add_orig,
      List.append_nil]
  | cons l ls ih =>
    intro os cs
    simp only [walk]
    split
    · simp only [List.filterMap_append, filterMap_rem_orig, filterMap_add_orig,
        List.append_nil]
    · rename_i hnot
      push_neg at hnot
      obtain ⟨ho, hc⟩ := hnot
      cases hdo : os.dropWhile (fun a => a != l) with
      | nil => exact absurd hdo ho
      | cons x xs =>
        have hx : x = l := dropWhile_bne_head hdo
        rw [List.filterMap_append, List.filterMap_append, filterMap_rem_orig,
          filterMap_add_orig, List.filterMap_cons]
        simp only [origContent, show (Kind.unchanged = Kind.added) = False by simp,
          if_false, List.append_nil]
        rw [List.tail_cons]
        rw [ih]
        conv_rhs => rw [← List.takeWhile_append_dropWhile (fun x => x != l) os]
        rw [hdo, hx]

theorem walk_chg : ∀ (ls os cs : List String),
    (walk os cs ls).filterMap chgContent = cs := by
  intro ls
  induction ls with
  | nil =>
    intro os cs
    simp only [walk, List.filterMap_append, filterMap_rem_chg, filterMap_add_chg,
      List.nil_append]
  | cons l ls ih =>
    intro os cs
    simp only [walk]
    split
    · simp only [List.filterMap_append, filterMap_rem_chg, filterMap_add_chg,
        List.nil_append]
    · rename_i hnot
      push_neg at hnot
      obtain ⟨ho, hc⟩ := hnot
      cases hdc : cs.dropWhile (fun a => a != l) with
      | nil => exact absurd hdc hc
      | cons x xs =>
        have hx : x = l := dropWhile_bne_head hdc
        rw [List.filterMap_append, List.filterMap_append, filterMap_rem_chg,
          filterMap_add_chg, List.filterMap_cons]
        simp only [chgContent, show (Kind.unchanged = Kind.removed) = False by simp,
          if_false, List.nil_append]
        rw [List.tail_cons]
        rw [ih]
        conv_rhs => rw [← List.takeWhile_append_dropWhile (fun x => x != l) cs]
        rw [hdc, hx]

theorem walk_self : ∀ (os : List String),
    walk os os os = os.map (fun s => ⟨Kind.unchanged, s⟩) := by
  intro os
  induction os with
  | nil => simp [walk]
  | cons o os ih =>
    simp only [walk]
    have hdrop : (o :: os).dropWhile (fun a => a != o) = o :: os := by
      rw [List.dropWhile_cons, if_neg (by simp)]
    have htake : (o :: os).takeWhile (fun a => a != o) = [] := by
      rw [List.takeWhile_cons, if_neg (by simp)]
    rw [if_neg (by rw [hdrop]; simp)]
    rw [hdrop, htake, List.tail_cons, ih]
    simp

theorem mem_walk_content : ∀ (ls os cs : List String) (hl : HLine),
    hl ∈ walk os cs ls → hl.content ∈ os ∨ hl.content ∈ cs ∨ hl.content ∈ ls := by
  intro ls
  induction ls with
  | nil =>
    intro os cs hl h
    simp only [walk, List.mem_append, List.mem_map] at h
    rcases h with ⟨s, hs, he⟩ | ⟨s, hs, he⟩
    · exact Or.inl (by rw [← he]; exact hs)
    · exact Or.inr (Or.inl (by rw [← he]; exact hs))
  | cons l ls ih =>
    intro os cs hl h
    simp only [walk] at h
    split at h
    · simp only [List.mem_append, List.mem_map] at h
      rcases h with ⟨s, hs, he⟩ | ⟨s, hs, he⟩
      · exact Or.inl (by rw [← he]; exact hs)
      · exact Or.inr (Or.inl (by rw [← he]; exact hs))
    · rw [List.append_assoc, List.mem_append, List.mem_append, List.mem_cons] at h
      rcases h with h | h | h
      · rw [List.mem_map] at h
        obtain ⟨s, hs, he⟩ := h
        exact Or.inl (by rw [← he]; exact List.takeWhile_subset _ hs)
      · rw [List.mem_map] at h
        obtain ⟨s, hs, he⟩ := h
        exact Or.inr (Or.inl (by rw [← he]; exact List.takeWhile_subset _ hs))
      · rcases h with he | hmem
        · right; right
          rw [he]
          exact List.mem_cons_self l ls
        · rcases ih _ _ hl hmem with h1 | h1 | h1
          · exact Or.inl
              (((List.dropWhile_sublist _).subset) ((List.tail_sublist _).subset h1))
          · exact Or.inr (Or.inl
              (((List.dropWhile_sublist _).subset) ((List.tail_sublist _).subset h1)))
          · exact Or.inr (Or.inr (List.mem_cons_of_mem l h1))

/-! ### Properties of hunk coalescing -/

/-- The classified-line list denoted by a hunk list. -/
def listOf : List Hunk → List HLine
  | [] => []
  | h :: hs => h.lines.map (fun l => ⟨h.kind, l⟩) ++ listOf hs

theorem coalesce_flatten : ∀ hls : List HLine, listOf (coalesce hls) = hls := by
  intro hls
  induction hls with
  | nil => rfl
  | cons hl t ih =>
    simp only [coalesce]
    cases hc : coalesce t with
    | nil =>
      rw [hc] at ih
      simp only [listOf] at ih
      simp only [coalesceStep, listOf, List.map_cons, List.map_nil, List.cons_append,
        List.nil_append, List.append_nil]
      rw [← ih]
    | cons h hs =>
      rw [hc] at ih
      simp only [coalesceStep]
      by_cases hk : hl.kind = h.kind
      · rw [if_pos hk]
        simp only [listOf, List.map_cons, List.cons_append] at ih ⊢
        rw [hk, ih, ← hk]
      · rw [if_neg hk]
        simp only [listOf, List.map_cons, List.map_nil, List.cons_append, List.nil_append]
        rw [show (h.lines.map (fun l => (⟨h.kind, l⟩ : HLine)) ++ listOf hs) = listOf (h :: hs)
          from rfl, ih]

theorem mem_listOf {hs : List Hunk} {h : Hunk} {l : String}
    (hh : h ∈ hs) (hl : l ∈ h.lines) : (⟨h.kind, l⟩ : HLine) ∈ listOf hs := by
  induction hs with
  | nil => simp at hh
  | cons h0 hs ih =>
    simp only [listOf, List.mem_append, List.mem_map]
    rcases List.mem_cons.mp hh with he | hm
    · subst he
      exact Or.inl ⟨l, hl, rfl⟩
    · exact Or.inr (ih hm)

/-! ### The rendering bridge -/

theorem partDisplay_hunkChange (h : Hunk) (hno : ∀ l ∈ h.lines, '\n' ∉ l.data) :
    partDisplay (hunkChange h) = hunkDisplay h := by
  obtain ⟨k, ls⟩ := h
  simp only [partDisplay, hunkChange, hunkDisplay] at hno ⊢
  rw [jsLines_strJoin ls hno, dropLastEmpty_concat_empty]
  cases k <;> simp [kindPfx]

theorem mem_hunksOf_content {os cs : List String} {h : Hunk}
    (hh : h ∈ hunksOf os cs) : ∀ l ∈ h.lines, l ∈ os ∨ l ∈ cs := by
  intro l hl
  have hmem := mem_listOf hh hl
  simp only [hunksOf] at hmem
  rw [coalesce_flatten] at hmem
  have hw := mem_walk_content _ _ _ _ hmem
  rcases hw with h1 | h1 | h1
  · exact Or.inl h1
  · exact Or.inr h1
  · exact Or.inl (mem_lcs h1).1

theorem mem_hunksOf_no_nl {o c : String} {h : Hunk}
    (hh : h ∈ hunksOf (toLines o) (toLines c)) : ∀ l ∈ h.lines, '\n' ∉ l.data := by
  intro l hl
  rcases mem_hunksOf_content hh l hl with h1 | h1
  · exact mem_toLines_no_nl h1
  · exact mem_toLines_no_nl h1

theorem displayLines_eq_hunks (o c : String) :
    displayLines o c = (hunksOf (toLines o) (toLines c)).flatMap hunkDisplay := by
  by_cases hg : o = "" ∧ c = ""
  · rw [displayLines, if_pos hg]
    obtain ⟨ho, hc⟩ := hg
    subst ho
    subst hc
    rfl
  · rw [displayLines, if_neg hg, diffLines, List.flatMap_map]
    exact (List.flatMap_congr
      (fun h hh => partDisplay_hunkChange h (mem_hunksOf_no_nl hh))).symm ▸ rfl

theorem flatMap_kind_map (hs : List Hunk) :
    hs.flatMap (fun h => h.lines.map (fun line => kindPfx h.kind ++ line)) =
      (listOf hs).map (fun hl => kindPfx hl.kind ++ hl.content) := by
  induction hs with
  | nil => rfl
  | cons h hs ih =>
    simp only [List.flatMap_cons, listOf, List.map_append, List.map_map, ih]
    rfl

theorem displayLines_eq_walk (o c : String)
    (ho : ∀ l ∈ toLines o, l ≠ "") (hc : ∀ l ∈ toLines c, l ≠ "") :
    displayLines o c =
      (walk (toLines o) (toLines c) (lcs (toLines o) (toLines c))).map
        (fun hl => kindPfx hl.kind ++ hl.content) := by
  rw [displayLines_eq_hunks]
  have hfull : ∀ h ∈ hunksOf (toLines o) (toLines c),
      hunkDisplay h = h.lines.map (fun line => kindPfx h.kind ++ line) := by
    intro h hh
    have hfil : h.lines.filter (fun line => line != "" || h.lines.length == 1) = h.lines := by
      refine List.filter_eq_self.mpr (fun a ha => ?_)
      have hne : a ≠ "" := by
        rcases mem_hunksOf_content hh a ha with h1 | h1
        · exact ho a h1
        · exact hc a h1
      simp [hne]
    rw [hunkDisplay, hfil]
  rw [List.flatMap_congr hfull, flatMap_kind_map]
  simp only [hunksOf]
  rw [coalesce_flatten]

theorem stripOrig_kindPfx (k : Kind) (s : String) :
    stripOrig (kindPfx k ++ s) = if k = Kind.added then none else some s := by
  cases k
  · simp only [kindPfx, stripOrig, String.data_append,
      show ("  " : String).data = [' ', ' '] by decide]
    rw [List.take_left' (show ([' ', ' '] : List Char).length = 2 by decide),
      List.drop_left' (show ([' ', ' '] : List Char).length = 2 by decide), str_eta]
    simp
  · simp only [kindPfx, stripOrig, String.data_append,
      show ("- " : String).data = ['-', ' '] by decide]
    rw [List.take_left' (show (['-', ' '] : List Char).length = 2 by decide),
      List.drop_left' (show (['-', ' '] : List Char).length = 2 by decide), str_eta]
    simp
  · simp only [kindPfx, stripOrig, String.data_append,
      show ("+ " : String).data = ['+', ' '] by decide]
    rw [List.take_left' (show (['+', ' '] : List Char).length = 2 by decide),
      List.drop_left' (show (['+', ' '] : List Char).length = 2 by decide), str_eta]
    simp

/-! ### The string-fold bridge -/

theorem strJoin_append (a b : List String) :
    strJoin (a ++ b) = strJoin a ++ strJoin b := by
  induction a with
  | nil => simp [strJoin]
  | cons x a ih => simp [strJoin, ih, String.append_assoc]

theorem foldl_emit (p : String → Bool) (f : String → String) :
    ∀ (l : List String) (acc : String),
      l.foldl (fun a x => if p x then a ++ f x else a) acc
        = acc ++ strJoin ((l.filter p).map f) := by
  intro l
  induction l with
  | nil => intro acc; simp [strJoin]
  | cons x l ih =>
    intro acc
    rw [List.foldl_cons, List.filter_cons]
    by_cases hp : p x = true
    · rw [if_pos hp, if_pos hp, List.map_cons]
      rw [ih]
      simp only [strJoin]
      rw [String.append_assoc]
    · rw [if_neg hp, if_neg hp, ih]

theorem partAppend_eq (dr : String) (part : Change) :
    partAppend dr part = dr ++ strJoin ((partDisplay part).map (fun l => l ++ "\n")) := by
  simp only [partAppend, partDisplay]
  rw [foldl_emit, List.map_map]
  rfl

theorem foldl_partAppend (parts : List Change) : ∀ acc : String,
    parts.foldl partAppend acc
      = acc ++ strJoin ((parts.flatMap partDisplay).map (fun l => l ++ "\n")) := by
  induction parts with
  | nil => intro acc; simp [strJoin]
  | cons part parts ih =>
    intro acc
    rw [List.foldl_cons, partAppend_eq, ih, List.flatMap_cons, List.map_append,
      strJoin_append, String.append_assoc]

theorem resultText_eq (o c : String) :
    resultText o c = strJoin ((displayLines o c).map (fun l => l ++ "\n")) := by
  by_cases hg : o = "" ∧ c = ""
  · rw [resultText, if_pos hg, displayLines, if_pos hg]
    rfl
  · rw [resultText, if_neg hg, displayLines, if_neg hg, foldl_partAppend]
    simp

theorem strJoin_nl_getLast (L : List String) :
    strJoin (L.map (fun l => l ++ "\n")) = "" ∨
      (strJoin (L.map (fun l => l ++ "\n"))).data.getLast? = some '\n' := by
  induction L with
  | nil => exact Or.inl rfl
  | cons l L ih =>
    right
    rw [List.map_cons]
    simp only [strJoin]
    rw [String.data_append]
    rcases ih with h | h
    · rw [h, show ("" : String).data = [] from rfl, List.append_nil, String.data_append,
        show ("\n" : String).data = ['\n'] by decide]
      exact List.getLast?_concat _
    · rw [List.getLast?_append, h]
      rfl

theorem strJoin_nl_ne_empty (l : String) (L : List String) :
    strJoin ((l :: L).map (fun x => x ++ "\n")) ≠ "" := by
  intro h
  have hd := congrArg String.data h
  rw [List.map_cons] at hd
  simp only [strJoin] at hd
  rw [String.data_append, String.data_append,
    show ("\n" : String).data = ['\n'] by decide] at hd
  simp at hd

theorem strJoin_nl_joinWithNl : ∀ (L : List String) (l : String),
    strJoin ((l :: L).map (fun x => x ++ "\n")) = joinWithNl (l :: L) ++ "\n" := by
  intro L
  induction L with
  | nil =>
    intro l
    simp [strJoin, joinWithNl]
  | cons y L ih =>
    intro l
    simp only [List.map_cons, strJoin, joinWithNl] at ih ⊢
    rw [ih y]
    rw [← String.append_assoc]

theorem stripChg_kindPfx (k : Kind) (s : String) :
    stripChg (kindPfx k ++ s) = if k = Kind.removed then none else some s := by
  cases k
  · simp only [kindPfx, stripChg, String.data_append,
      show ("  " : String).data = [' ', ' '] by decide]
    rw [List.take_left' (show ([' ', ' '] : List Char).length = 2 by decide),
      List.drop_left' (show ([' ', ' '] : List Char).length = 2 by decide), str_eta]
    simp
  · simp only [kindPfx, stripChg, String.data_append,
      show ("- " : String).data = ['-', ' '] by decide]
    rw [List.take_left' (show (['-', ' '] : List Char).length = 2 by decide),
      List.drop_left' (show (['-', ' '] : List Char).length = 2 by decide), str_eta]
    simp
  · simp only [kindPfx, stripChg, String.data_append,
      show ("+ " : String).data = ['+', ' '] by decide]
    rw [List.take_left' (show (['+', ' '] : List Char).length = 2 by decide),
      List.drop_left' (show (['+', ' '] : List Char).length = 2 by decide), str_eta]
    simp

/-! ### Claim theorems -/

/-- Claim C1 (corrected), counterexample: the round-trip reconstruction
fails as stated.  For original = changed = "x\n\ny" the middle empty
line sits in a three-line unchanged hunk, so the rendering filter drops
it and the "- "/"  " subsequence, stripped, is ["x", "y"], not the
three-line sequence ["x", "", "y"] required by the claim's
line-sequence rule. -/
theorem C1_counterexample :
    (displayLines "x\n\ny" "x\n\ny").filterMap stripOrig ≠ specLineSeq "x\n\ny" := by
  decide

/-- Claim C1 (corrected, amended): for input pairs whose line sequences
contain no empty line, the subsequence of display lines with prefix
"- " or "  ", prefix-stripped, equals the original's line sequence, and
the "+ "/"  " subsequence equals the changed line sequence. -/
theorem C1_round_trip (A B : String)
    (hA : ∀ l ∈ specLineSeq A, l ≠ "") (hB : ∀ l ∈ specLineSeq B, l ≠ "") :
    (displayLines A B).filterMap stripOrig = specLineSeq A ∧
    (displayLines A B).filterMap stripChg = specLineSeq B := by
  have hA' : A ≠ "" := by
    intro he
    subst he
    exact hA "" (by decide) rfl
  have hB' : B ≠ "" := by
    intro he
    subst he
    exact hB "" (by decide) rfl
  rw [specLineSeq_eq_toLines A hA'] at hA ⊢
  rw [specLineSeq_eq_toLines B hB'] at hB ⊢
  rw [displayLines_eq_walk A B hA hB]
  constructor
  · rw [List.filterMap_map]
    rw [show (stripOrig ∘ fun hl => kindPfx hl.kind ++ hl.content) = origContent from
      funext (fun hl => by
        obtain ⟨k, s⟩ := hl
        show stripOrig (kindPfx k ++ s) = origContent ⟨k, s⟩
        rw [stripOrig_kindPfx]
        rfl)]
    exact walk_orig _ _ _
  · rw [List.filterMap_map]
    rw [show (stripChg ∘ fun hl => kindPfx hl.kind ++ hl.content) = chgContent from
      funext (fun hl => by
        obtain ⟨k, s⟩ := hl
        show stripChg (kindPfx k ++ s) = chgContent ⟨k, s⟩
        rw [stripChg_kindPfx]
        rfl)]
    exact walk_chg _ _ _

/-- Claim C1 witness: the amended round-trip at the concrete pair
("a\nb", "b\nc"). -/
theorem C1_round_trip_witness :
    (displayLines "a\nb" "b\nc").filterMap stripOrig = specLineSeq "a\nb" ∧
    (displayLines "a\nb" "b\nc").filterMap stripChg = specLineSeq "b\nc" :=
  C1_round_trip "a\nb" "b\nc" (by decide) (by decide)

/-- Claim C2 (corrected), counterexample: for A = "x\n\ny" the diff of A
with itself renders only two "  " lines because the empty middle line of
the single three-line unchanged hunk is dropped, so the output is not
one "  " line per line of A. -/
theorem C2_counterexample :
    displayLines "x\n\ny" "x\n\ny" ≠ (specLineSeq "x\n\ny").map (fun l => "  " ++ l) := by
  decide

/-- Claim C2 (corrected, amended): for every string A whose line
sequence contains no empty line, the diff of A with itself is exactly
one "  "-prefixed line per line of A, in order. -/
theorem C2_identity (A : String) (h : ∀ l ∈ specLineSeq A, l ≠ "") :
    displayLines A A = (specLineSeq A).map (fun l => "  " ++ l) := by
  have hA : A ≠ "" := by
    intro he
    subst he
    exact h "" (by decide) rfl
  rw [specLineSeq_eq_toLines A hA] at h ⊢
  rw [displayLines_eq_walk A A h h, lcs_self, walk_self, List.map_map]
  rfl

/-- Claim C2 witness: the amended identity at A = "a\nb". -/
theorem C2_identity_witness :
    displayLines "a\nb" "a\nb" = (specLineSeq "a\nb").map (fun l => "  " ++ l) :=
  C2_identity "a\nb" (by decide)

/-- Claim C3 (confirmed): diffing "a\nb\n" against "a\nb" yields exactly
the two unchanged display lines "  a" and "  b" — no added, removed or
phantom blank line. -/
theorem C3_trailing_newline :
    displayLines "a\nb\n" "a\nb" = ["  a", "  b"] := by
  decide

/-- Claim C4 (confirmed): the rendered output is exactly the hunks'
lines filtered by the rule "keep a line iff it is non-empty or is the
only line of its hunk", each with its kind's prefix; in particular a
hunk whose only line is the empty string, when it is the sole hunk of
the result, is still emitted as its bare prefix. -/
theorem C4_empty_line_rule (o c : String) :
    displayLines o c = (hunksOf (toLines o) (toLines c)).flatMap hunkDisplay ∧
    (∀ h : Hunk, hunksOf (toLines o) (toLines c) = [h] → h.lines = [""] →
      displayLines o c = [kindPfx h.kind]) := by
  refine ⟨displayLines_eq_hunks o c, fun h hh hl => ?_⟩
  rw [displayLines_eq_hunks o c, hh]
  simp [hunkDisplay, hl, List.flatMap_cons, List.flatMap_nil]

/-- Claim C4 witness: for the pair ("", "\n") the sole hunk is a single
empty added line and it is emitted as the bare "+ " prefix. -/
theorem C4_empty_line_rule_witness :
    hunksOf (toLines "") (toLines "\n") = [⟨Kind.added, [""]⟩] ∧
    displayLines "" "\n" = [kindPfx Kind.added] :=
  ⟨by decide, (C4_empty_line_rule "" "\n").2 ⟨Kind.added, [""]⟩ (by decide) (by decide)⟩

/-- Claim C5 (corrected), counterexample: the line sequences of "\na"
and "b" share no common line, yet the result is ["- a", "+ b"] — the
empty first line of the two-line removed hunk is dropped by the
rendering filter, so the output is not one "- " line per original
line. -/
theorem C5_counterexample :
    (specLineSeq "\na").inter (specLineSeq "b") = [] ∧
    displayLines "\na" "b" ≠
      (specLineSeq "\na").map (fun l => "- " ++ l) ++
        (specLineSeq "b").map (fun l => "+ " ++ l) := by
  decide

/-- Claim C5 (corrected, amended): for input pairs whose line sequences
share no common line and contain no empty line, the result is exactly
the original's lines prefixed "- ", in order, followed by the changed
lines prefixed "+ ", in order. -/
theorem C5_total_replacement (o c : String)
    (hdisj : ∀ l ∈ specLineSeq o, l ∉ specLineSeq c)
    (ho : ∀ l ∈ specLineSeq o, l ≠ "") (hc : ∀ l ∈ specLineSeq c, l ≠ "") :
    displayLines o c =
      (specLineSeq o).map (fun l => "- " ++ l) ++
        (specLineSeq c).map (fun l => "+ " ++ l) := by
  have ho' : o ≠ "" := by
    intro he
    subst he
    exact ho "" (by decide) rfl
  have hc' : c ≠ "" := by
    intro he
    subst he
    exact hc "" (by decide) rfl
  rw [specLineSeq_eq_toLines o ho'] at hdisj ho ⊢
  rw [specLineSeq_eq_toLines c hc'] at hdisj hc ⊢
  rw [displayLines_eq_walk o c ho hc, lcs_nil_of_disjoint hdisj]
  simp only [walk]
  rw [List.map_append, List.map_map, List.map_map]
  rfl

/-- Claim C5 witness: the amended total replacement at the concrete
pair ("a", "b"). -/
theorem C5_total_replacement_witness :
    displayLines "a" "b" =
      (specLineSeq "a").map (fun l => "- " ++ l) ++
        (specLineSeq "b").map (fun l => "+ " ++ l) :=
  C5_total_replacement "a" "b" (by decide) (by decide) (by decide)

/-- Claim C6 (confirmed): the concrete replacement scenario renders as
the four display lines "  foo", "- bar", "+ qux", "  baz" in order. -/
theorem C6_concrete_scenario :
    displayLines "foo\nbar\nbaz" "foo\nqux\nbaz"
      = ["  foo", "- bar", "+ qux", "  baz"] := by
  decide

/-- Claim C7 (confirmed): both inputs empty produce the empty result
string and no display line at all. -/
theorem C7_empty_empty :
    resultText "" "" = "" ∧ displayLines "" "" = [] := by
  decide

/-- Claim C8 (corrected), counterexample: the clipboard payload is not
the display lines joined by newlines wrapped tightly in the fence — the
result string's own trailing newline adds a blank line before the
closing fence. -/
theorem C8_counterexample :
    (copyToClipboard (resultText "a" "b")).wrote = some "```diff\n- a\n+ b\n\n```" ∧
    "```diff\n" ++ joinWithNl (displayLines "a" "b") ++ "\n```" = "```diff\n- a\n+ b\n```" ∧
    (copyToClipboard (resultText "a" "b")).wrote ≠
      some ("```diff\n" ++ joinWithNl (displayLines "a" "b") ++ "\n```") := by
  decide

/-- Claim C8 (corrected, amended): for a non-empty diff result the
attempted clipboard payload is the display lines joined by newlines,
prefixed by the opening fence and followed by TWO newlines (the result
string's trailing newline plus the appended one) and the closing
fence. -/
theorem C8_export_format (o c : String) (h : resultText o c ≠ "") :
    (copyToClipboard (resultText o c)).wrote =
      some ("```diff\n" ++ joinWithNl (displayLines o c) ++ "\n\n```") := by
  have hL : displayLines o c ≠ [] := by
    intro hl
    apply h
    rw [resultText_eq, hl]
    rfl
  obtain ⟨l0, L, hLL⟩ : ∃ l0 L, displayLines o c = l0 :: L := by
    cases hd : displayLines o c with
    | nil => exact absurd hd hL
    | cons a b => exact ⟨a, b, rfl⟩
  rw [copyToClipboard, if_neg h, resultText_eq, hLL, strJoin_nl_joinWithNl]
  rw [← String.append_assoc, String.append_assoc,
    show ("\n" : String) ++ "\n```" = "\n\n```" by decide]

/-- Claim C8 witness: the amended export format at the concrete pair
("a", "b"). -/
theorem C8_export_format_witness :
    (copyToClipboard (resultText "a" "b")).wrote =
      some ("```diff\n" ++ joinWithNl (displayLines "a" "b") ++ "\n\n```") :=
  C8_export_format "a" "b" (by decide)

/-- Claim C9 (confirmed): an empty result is rejected with the
"Nothing to copy" toast and no clipboard write is attempted; a write is
attempted, with the fenced payload, exactly when the result is
non-empty. -/
theorem C9_copy_rejection (t : String) :
    (copyToClipboard t).wrote
        = (if t = "" then none else some ("```diff\n" ++ t ++ "\n```")) ∧
    (copyToClipboard t).toastTitle
        = (if t = "" then "Nothing to copy" else "Copied to clipboard") := by
  by_cases ht : t = "" <;> simp [copyToClipboard, ht]

/-- Claim C10 (confirmed): the result string is the display lines each
terminated by a newline; in particular a non-empty result always ends
with a newline character. -/
theorem C10_trailing_newline_invariant (o c : String) :
    resultText o c = strJoin ((displayLines o c).map (fun l => l ++ "\n")) ∧
    (resultText o c ≠ "" → (resultText o c).data.getLast? = some '\n') := by
  refine ⟨resultText_eq o c, fun h => ?_⟩
  rw [resultText_eq] at h ⊢
  rcases strJoin_nl_getLast (displayLines o c) with h1 | h1
  · exact absurd h1 h
  · exact h1

/-- Claim C10 witness: the trailing-newline invariant at the concrete
pair ("a", "b"). -/
theorem C10_trailing_newline_invariant_witness :
    resultText "a" "b" ≠ "" ∧ (resultText "a" "b").data.getLast? = some '\n' :=
  ⟨by decide, (C10_trailing_newline_invariant "a" "b").2 (by decide)⟩

end MDiff
